import Mathlib

/-!
Shallow embedding of the arXiv scraper (src/main.py).

Text is modelled as lists of characters (`Str`); calendar dates as integers
counting days, so that `date ± timedelta(days=k)` becomes `d ± k` and date
comparison becomes integer comparison.  Python `set` fields are modelled as
`Finset`.  The network boundary (the arXiv client) is an input: each
category's raw query results are given to the pipeline, which performs the
client-side date filtering of `search_arxiv` itself.
-/

abbrev Str := List Char

/-- ASCII lowering of one character, as done by `str.lower()` and by
case-insensitive regex matching. -/
def lowerChar (c : Char) : Char :=
  if h : 65 ≤ c.toNat ∧ c.toNat ≤ 90 then
    Char.ofNatAux (c.toNat + 32) (Or.inl (by omega))
  else c

/-- `str.lower()`. -/
def lowerStr (s : Str) : Str := s.map lowerChar

/-- Word-constituent character, regex `\w` over ASCII: letter, digit or
underscore. -/
def wordChar (c : Char) : Bool :=
  decide ((48 ≤ c.toNat ∧ c.toNat ≤ 57) ∨ (65 ≤ c.toNat ∧ c.toNat ≤ 90) ∨
    (97 ≤ c.toNat ∧ c.toNat ≤ 122) ∨ c.toNat = 95)

/-- `str.strip()`: drop whitespace from both ends. -/
def pyStrip (s : Str) : Str :=
  ((s.dropWhile Char.isWhitespace).reverse.dropWhile Char.isWhitespace).reverse

/-- `str.split(',')`: split on every comma; the empty string splits to
`[""]`. -/
def splitComma : Str → List Str
  | [] => [[]]
  | c :: rest =>
    match splitComma rest, decide (c = ',') with
    | r, true => [] :: r
    | [], false => [[c]]
    | x :: xs, false => (c :: x) :: xs

/-- Case-insensitive literal match of a pattern against a prefix of a text. -/
def ciMatch : Str → Str → Bool
  | [], _ => true
  | _ :: _, [] => false
  | p :: ps, c :: cs => (lowerChar p == lowerChar c) && ciMatch ps cs

/-- Is the character at position `i` of `t` a word character (out of range
counts as no)? -/
def wAt (t : Str) (i : Nat) : Bool :=
  match t[i]? with
  | some c => wordChar c
  | none => false

/-- Regex `\b` at position `p` of `t`: exactly one of the adjacent positions
holds a word character. -/
def bAt (t : Str) (p : Nat) : Bool :=
  (if p = 0 then false else wAt t (p - 1)) != wAt t p

/-- Match of the regex `\b<kw>s?\b` (with `IGNORECASE`) anchored at position
`i` of `t`, the pattern built by `exact_match` for one synonym `kw`. -/
def patMatchAt (kw t : Str) (i : Nat) : Bool :=
  bAt t i && ciMatch kw (t.drop i) &&
    ((ciMatch ['s'] (t.drop (i + kw.length)) && bAt t (i + kw.length + 1)) ||
      bAt t (i + kw.length))

/-- `regex.search` of the pattern `\b<kw>s?\b` over `t`: some anchored match
succeeds. -/
def regexSearch (kw t : Str) : Bool :=
  (List.range (t.length + 1)).any (fun i => patMatchAt kw t i)

/-- Inner loop of `exact_match` over one group's synonym list: stop scanning
at the first synonym whose pattern matches. -/
def groupHit (tl : Str) : List Str → Bool
  | [] => false
  | kw :: rest => regexSearch (pyStrip kw) tl || groupHit tl rest

/-- Outer loop of `exact_match`: for each comma-joined group, append the
group's first term when some synonym matched. -/
def exactMatchGo (tl : Str) : List Str → List Str
  | [] => []
  | g :: rest =>
    let sl := splitComma g
    if groupHit tl sl then sl.headD [] :: exactMatchGo tl rest
    else exactMatchGo tl rest

/-- `exact_match` from src/main.py: lower the text, then per comma-joined
keyword group emit the group's first term when some synonym matches as
`\b<synonym>s?\b` case-insensitively. -/
def exact_match (text : Str) (keyword_list : List Str) : List Str :=
  exactMatchGo (lowerStr text) keyword_list

/-- `extract_specificities` from src/main.py. -/
def extract_specificities (text : Str) (architecture_keywords application_keywords : List Str) :
    List Str × List Str :=
  (exact_match text architecture_keywords, exact_match text application_keywords)

/-- Spec-side predicate, written from the spec's words: some occurrence of
`kw`, optionally followed by a trailing `s`, appears in `t` case-insensitively
with no word character adjacent on either side (a "whole word" occurrence). -/
def occursWholeWord (kw t : Str) : Bool :=
  (List.range (t.length + 1)).any fun i =>
    (if i = 0 then true else !wAt t (i - 1)) &&
      ((ciMatch kw (t.drop i) && !wAt t (i + kw.length)) ||
        (ciMatch (kw ++ ['s']) (t.drop i) && !wAt t (i + kw.length + 1)))

/-- A Paper record as built and persisted by src/main.py.  `is_recent` is
`none` when the JSON object carries no such key (newly fetched papers are
built without it). -/
structure Paper where
  title : Str
  url : Str
  authors : List Str
  published : Int
  abstract : Str
  categories : Finset Str
  architectures : List Str
  applications : List Str
  is_recent : Option Bool
deriving DecidableEq

/-- `get_paper_key` from src/main.py: (lowercased stripped title, lowercased
stripped first author, or "" when there are no authors). -/
def get_paper_key (p : Paper) : Str × Str :=
  (lowerStr (pyStrip p.title),
   match p.authors with
   | [] => []
   | a :: _ => lowerStr (pyStrip a))

abbrev Key := Str × Str

/-- The `seen` dict: association list in insertion order, first-match
discipline. -/
abbrev Seen := List (Key × Paper)

/-- Dict lookup. -/
def dictGet : Seen → Key → Option Paper
  | [], _ => none
  | (k', v') :: rest, k => if k' = k then some v' else dictGet rest k

/-- Dict assignment `seen[k] = v`: replace in place when present, append when
absent. -/
def dictSet : Seen → Key → Paper → Seen
  | [], k, v => [(k, v)]
  | (k', v') :: rest, k, v =>
    if k' = k then (k, v) :: rest else (k', v') :: dictSet rest k v

/-- `list(seen.values())` in insertion order. -/
def dictValues (s : Seen) : List Paper := s.map (·.2)

/-- One iteration of the merge loop: append the category name to the fetched
paper's categories, then insert it as new or union categories into the
existing entry ("first write wins except categories"). -/
def mergePaper (s : Seen) (cat : Str) (p0 : Paper) : Seen :=
  let p := { p0 with categories := insert cat p0.categories }
  let k := get_paper_key p
  match dictGet s k with
  | none => dictSet s k p
  | some existing =>
      dictSet s k { existing with categories := existing.categories ∪ p.categories }

/-- The merge loop over one category's fetched papers. -/
def mergeCategory (s : Seen) (cat : Str) : List Paper → Seen
  | [] => s
  | p :: ps => mergeCategory (mergePaper s cat p) cat ps

/-- Annotate one existing paper with `is_recent` (published within the last
7 days). -/
def annotateRecent (today : Int) (p : Paper) : Paper :=
  { p with is_recent := some (decide (today - 7 ≤ p.published)) }

/-- Build the `seen` dict from the loaded papers: annotate `is_recent`, then
`seen[get_paper_key(p)] = p`. -/
def buildSeen (today : Int) : Seen → List Paper → Seen
  | s, [] => s
  | s, p :: ps =>
      buildSeen today
        (dictSet s (get_paper_key (annotateRecent today p)) (annotateRecent today p)) ps

/-- State of the persisted corpus file at startup. -/
inductive CorpusFile
  | missing
  | corrupt
  | valid (papers : List Paper)

/-- Loading the existing papers: a missing file or malformed JSON degrades to
the empty list without raising. -/
def loadExistingPapers : CorpusFile → List Paper
  | .missing => []
  | .corrupt => []
  | .valid ps => ps

/-- The `--start-date` CLI flag, already parsed: `-Nd` or `YYYY-MM-DD`. -/
inductive StartArg
  | relative (days : Int)
  | absolute (d : Int)

/-- Start-date resolution of src/main.py (lines 182-192): CLI override first;
else latest published date among existing papers minus a one-day buffer; else
the configured default. -/
def resolveStartDate : Option StartArg → Int → List Paper → Int → Int
  | some (.relative n), today, _, _ => today - n
  | some (.absolute d), _, _, _ => d
  | none, _, existing, configStart =>
    match existing with
    | [] => configStart
    | p :: rest => rest.foldl (fun m q => max m q.published) p.published - 1

/-- A raw arXiv query result (title, entry id, author names, publication
date, abstract). -/
structure SearchResult where
  title : Str
  url : Str
  authors : List Str
  published : Int
  abstract : Str

/-- The paper dict built inside `search_arxiv` for one kept result: empty
categories/architectures/applications, and no `is_recent` key. -/
def resultToPaper (r : SearchResult) : Paper :=
  { title := r.title, url := r.url, authors := r.authors, published := r.published,
    abstract := r.abstract, categories := ∅, architectures := [], applications := [],
    is_recent := none }

/-- `search_arxiv`'s client-side filtering and paper construction; the network
query itself is an input (`rs`). Results published before `start_date` are
dropped. -/
def search_arxiv (rs : List SearchResult) (start_date : Int) : List Paper :=
  (rs.filter (fun r => decide (start_date ≤ r.published))).map resultToPaper

/-- `count_categories` from src/main.py: the Counter's count for a category
is the number of papers whose category set contains it. -/
def count_categories (papers : List Paper) : Str → Nat :=
  fun c => papers.countP (fun p => decide (c ∈ p.categories))

/-- The category summary record written at end of run. -/
structure Summary where
  scrape_date : Int
  new_papers : Int
  category_counts : Str → Nat

/-- Stable descending insertion for `sortPublishedDesc`. -/
def insertDesc (p : Paper) : List Paper → List Paper
  | [] => [p]
  | q :: qs =>
    if q.published ≤ p.published then p :: q :: qs else q :: insertDesc p qs

/-- `sorted(..., key=published, reverse=True)` (stable, descending). -/
def sortPublishedDesc (ps : List Paper) : List Paper :=
  ps.foldr insertDesc []

/-- The whole `main` pipeline of src/main.py, after loading config and with
the network results given as input: load corpus, resolve the start date,
annotate/dedup existing papers, compute (and discard) the sorted existing
list, merge each category's filtered results, tag
architectures/applications, and produce the persisted paper list plus the
category summary. -/
def runPipeline (file : CorpusFile) (today : Int) (cli : Option StartArg)
    (configStart : Int) (fetched : List (Str × List SearchResult))
    (archKw appKw : List Str) : List Paper × Summary :=
  let existing_papers := loadExistingPapers file
  let nb_existing_papers := existing_papers.length
  let start_date := resolveStartDate cli today existing_papers configStart
  let seen := buildSeen today [] existing_papers
  let _existing_papers_sorted := sortPublishedDesc (dictValues seen)
  let seen := fetched.foldl
    (fun s cq => mergeCategory s cq.1 (search_arxiv cq.2 start_date)) seen
  let unique_papers := (dictValues seen).map (fun p =>
    { p with architectures := (extract_specificities p.abstract archKw appKw).1,
             applications := (extract_specificities p.abstract archKw appKw).2 })
  (unique_papers,
   { scrape_date := today,
     new_papers := (unique_papers.length : Int) - (nb_existing_papers : Int),
     category_counts := count_categories unique_papers })

/-! ## Dictionary lemmas -/

theorem dictGet_dictSet_self (s : Seen) (k : Key) (v : Paper) :
    dictGet (dictSet s k v) k = some v := by
  induction s with
  | nil => simp [dictSet, dictGet]
  | cons kv rest ih =>
    obtain ⟨k', v'⟩ := kv
    by_cases h : k' = k
    · simp [dictSet, dictGet, h]
    · simp [dictSet, dictGet, h, ih]

theorem dictGet_dictSet_ne (s : Seen) (k k' : Key) (v : Paper) (h : k ≠ k') :
    dictGet (dictSet s k v) k' = dictGet s k' := by
  induction s with
  | nil => simp [dictSet, dictGet, h]
  | cons kv rest ih =>
    obtain ⟨k0, v0⟩ := kv
    by_cases h0 : k0 = k
    · subst h0; simp [dictSet, dictGet, h]
    · simp [dictSet, dictGet, h0, ih]

theorem dictSet_eq_self (s : Seen) (k : Key) (v : Paper)
    (h : dictGet s k = some v) : dictSet s k v = s := by
  induction s with
  | nil => simp [dictGet] at h
  | cons kv rest ih =>
    obtain ⟨k0, v0⟩ := kv
    by_cases h0 : k0 = k
    · subst h0
      simp [dictGet] at h
      simp [dictSet, h]
    · simp [dictGet, h0] at h
      simp [dictSet, h0, ih h]

theorem mem_dictSet (s : Seen) (k : Key) (v : Paper) (kv : Key × Paper)
    (h : kv ∈ dictSet s k v) : kv = (k, v) ∨ kv ∈ s := by
  induction s with
  | nil => simpa [dictSet] using h
  | cons kv0 rest ih =>
    obtain ⟨k0, v0⟩ := kv0
    by_cases h0 : k0 = k
    · simp only [dictSet, if_pos h0] at h
      rcases List.mem_cons.mp h with h | h
      · exact Or.inl h
      · exact Or.inr (List.mem_cons_of_mem _ h)
    · simp only [dictSet, if_neg h0] at h
      rcases List.mem_cons.mp h with h | h
      · exact Or.inr (h ▸ List.mem_cons_self _ _)
      · rcases ih h with h' | h'
        · exact Or.inl h'
        · exact Or.inr (List.mem_cons_of_mem _ h')

/-- `get_paper_key` does not depend on the categories field. -/
theorem get_paper_key_set_categories (p : Paper) (c : Finset Str) :
    get_paper_key { p with categories := c } = get_paper_key p := rfl

/-! ## C10 : get_paper_key on authorless papers -/

/-- C10: `get_paper_key` is total on papers with an empty authors sequence:
it returns (lowercased stripped title, ""), so two authorless papers with the
same normalised title share one identity key. -/
theorem get_paper_key_no_authors (p q : Paper) (hp : p.authors = [])
    (hq : q.authors = [])
    (ht : lowerStr (pyStrip p.title) = lowerStr (pyStrip q.title)) :
    get_paper_key p = (lowerStr (pyStrip p.title), []) ∧
      get_paper_key p = get_paper_key q := by
  constructor
  · simp [get_paper_key, hp]
  · simp [get_paper_key, hp, hq, ht]

def witnessPaperA : Paper :=
  { title := " The Title ".data, url := "u1".data, authors := [],
    published := 100, abstract := "a1".data, categories := ∅,
    architectures := [], applications := [], is_recent := none }

def witnessPaperB : Paper :=
  { title := "the title".data, url := "u2".data, authors := [],
    published := 200, abstract := "a2".data, categories := ∅,
    architectures := [], applications := [], is_recent := none }

theorem get_paper_key_no_authors_witness :
    witnessPaperA.authors = [] ∧ witnessPaperB.authors = [] ∧
      lowerStr (pyStrip witnessPaperA.title) = lowerStr (pyStrip witnessPaperB.title) ∧
      (get_paper_key witnessPaperA = (lowerStr (pyStrip witnessPaperA.title), []) ∧
        get_paper_key witnessPaperA = get_paper_key witnessPaperB) :=
  ⟨by decide, by decide, by decide,
    get_paper_key_no_authors witnessPaperA witnessPaperB (by decide) (by decide) (by decide)⟩

/-! ## C1 : merge unions categories, first write wins for other fields -/

/-- C1: when a fetched paper's identity key already exists in the keyed
corpus, the merge leaves a single entry under that key whose categories are
the set-union of the existing entry's and the (category-tagged) new paper's
categories, all other fields keeping the existing entry's values; entries
under every other key are untouched. -/
theorem mergePaper_existing_union (s : Seen) (cat : Str) (p e : Paper)
    (h : dictGet s (get_paper_key p) = some e) :
    dictGet (mergePaper s cat p) (get_paper_key p) =
      some { e with categories := e.categories ∪ insert cat p.categories } ∧
    ∀ k, k ≠ get_paper_key p → dictGet (mergePaper s cat p) k = dictGet s k := by
  have hkey : get_paper_key { p with categories := insert cat p.categories } =
      get_paper_key p := rfl
  constructor
  · simp only [mergePaper, hkey, h]
    exact dictGet_dictSet_self ..
  · intro k hk
    simp only [mergePaper, hkey, h]
    exact dictGet_dictSet_ne _ _ _ _ (Ne.symm hk)

def witnessExisting : Paper :=
  { title := "Deep Nets".data, url := "u1".data, authors := ["Ann".data],
    published := 50, abstract := "a".data, categories := {"ml".data},
    architectures := [], applications := [], is_recent := some true }

def witnessFetched : Paper :=
  { title := " deep nets ".data, url := "u2".data, authors := [" ANN ".data],
    published := 60, abstract := "b".data, categories := ∅,
    architectures := [], applications := [], is_recent := none }

theorem mergePaper_existing_union_witness :
    dictGet [(get_paper_key witnessExisting, witnessExisting)]
        (get_paper_key witnessFetched) = some witnessExisting ∧
    dictGet
        (mergePaper [(get_paper_key witnessExisting, witnessExisting)]
          "nlp".data witnessFetched)
        (get_paper_key witnessFetched) =
      some { witnessExisting with
              categories :=
                witnessExisting.categories ∪ insert "nlp".data witnessFetched.categories } :=
  ⟨by decide, (mergePaper_existing_union _ "nlp".data witnessFetched witnessExisting (by decide)).1⟩

/-! ## C4 : start date = latest published minus one day -/

theorem foldl_max_spec (l : List Int) (a : Int) :
    (l.foldl max a = a ∨ l.foldl max a ∈ l) ∧ a ≤ l.foldl max a ∧
      ∀ x ∈ l, x ≤ l.foldl max a := by
  induction l generalizing a with
  | nil => simp
  | cons b l ih =>
    obtain ⟨hmem, hle, hall⟩ := ih (max a b)
    simp only [List.foldl_cons]
    refine ⟨?_, ?_, ?_⟩
    · rcases hmem with hm | hm
      · rcases le_total a b with hab | hab
        · exact Or.inr (by rw [hm, max_eq_right hab]; exact List.mem_cons_self _ _)
        · exact Or.inl (by rw [hm, max_eq_left hab])
      · exact Or.inr (List.mem_cons_of_mem _ hm)
    · exact le_trans (le_max_left a b) hle
    · intro x hx
      rcases List.mem_cons.mp hx with rfl | hx
      · exact le_trans (le_max_right a x) hle
      · exact hall x hx

/-- C4: with no CLI override and a non-empty prior corpus, the resolved start
date is the maximum published date among the existing papers minus one day. -/
theorem resolveStartDate_buffer (today : Int) (existing : List Paper)
    (configStart : Int) (h : existing ≠ []) :
    ∃ m, resolveStartDate none today existing configStart = m - 1 ∧
      m ∈ existing.map Paper.published ∧ ∀ p ∈ existing, p.published ≤ m := by
  cases existing with
  | nil => exact absurd rfl h
  | cons p rest =>
    refine ⟨rest.foldl (fun m q => max m q.published) p.published, ?_, ?_, ?_⟩
    · simp [resolveStartDate]
    · have hmem := (foldl_max_spec (rest.map Paper.published) p.published).1
      rw [List.foldl_map] at hmem
      rcases hmem with hm | hm
      · rw [hm]; simp
      · simp only [List.map_cons]
        exact List.mem_cons_of_mem _ hm
    · intro q hq
      have hspec := foldl_max_spec (rest.map Paper.published) p.published
      rw [List.foldl_map] at hspec
      rcases List.mem_cons.mp hq with rfl | hq
      · exact hspec.2.1
      · exact hspec.2.2 q.published (List.mem_map_of_mem _ hq)

theorem resolveStartDate_buffer_witness :
    ([witnessPaperA, witnessPaperB] ≠ ([] : List Paper)) ∧
      ∃ m, resolveStartDate none 739500 [witnessPaperA, witnessPaperB] 0 = m - 1 ∧
        m ∈ [witnessPaperA, witnessPaperB].map Paper.published ∧
        ∀ p ∈ [witnessPaperA, witnessPaperB], p.published ≤ m :=
  ⟨by decide, resolveStartDate_buffer 739500 [witnessPaperA, witnessPaperB] 0 (by decide)⟩

/-! ## C8 : the category summary record -/

/-- C8: the summary carries the scrape date, `new_papers` = final corpus size
minus the corpus size loaded at start of run, and per-category counts equal to
the number of persisted papers whose category set contains the category. -/
theorem summary_fields (file : CorpusFile) (today : Int) (cli : Option StartArg)
    (configStart : Int) (fetched : List (Str × List SearchResult))
    (archKw appKw : List Str) :
    (runPipeline file today cli configStart fetched archKw appKw).2.scrape_date = today ∧
    (runPipeline file today cli configStart fetched archKw appKw).2.new_papers =
      ((runPipeline file today cli configStart fetched archKw appKw).1.length : Int) -
        ((loadExistingPapers file).length : Int) ∧
    ∀ c, (runPipeline file today cli configStart fetched archKw appKw).2.category_counts c =
      ((runPipeline file today cli configStart fetched archKw appKw).1.filter
        (fun p => decide (c ∈ p.categories))).length := by
  refine ⟨rfl, rfl, fun c => ?_⟩
  have hcc : (runPipeline file today cli configStart fetched archKw appKw).2.category_counts =
      count_categories (runPipeline file today cli configStart fetched archKw appKw).1 := rfl
  rw [hcc]
  simp only [count_categories]
  exact List.countP_eq_length_filter _ _

/-! ## C9 : corrupted corpus file degrades to an empty corpus -/

/-- C9: a run whose corpus file holds malformed JSON behaves exactly like a
run starting from an empty corpus; `runPipeline` is a total function, so the
run completes without raising. -/
theorem corrupt_corpus_fresh_start (today : Int) (cli : Option StartArg)
    (configStart : Int) (fetched : List (Str × List SearchResult))
    (archKw appKw : List Str) :
    runPipeline .corrupt today cli configStart fetched archKw appKw =
      runPipeline (.valid []) today cli configStart fetched archKw appKw := rfl

/-! ## C2 : merge idempotence -/

/-- After merging one paper, every key previously present is still present,
with its categories only grown and nothing else changed about presence. -/
theorem dictGet_mergePaper_mono (s : Seen) (cat : Str) (q : Paper) (k : Key)
    (e : Paper) (h : dictGet s k = some e) :
    ∃ e', dictGet (mergePaper s cat q) k = some e' ∧ e.categories ⊆ e'.categories := by
  simp only [mergePaper, get_paper_key_set_categories]
  by_cases hk : get_paper_key q = k
  · subst hk
    rw [h]
    exact ⟨_, dictGet_dictSet_self .., Finset.subset_union_left⟩
  · cases hget : dictGet s (get_paper_key q) with
    | none =>
      exact ⟨e, by rw [dictGet_dictSet_ne _ _ _ _ hk]; exact h, Finset.Subset.refl _⟩
    | some ex =>
      exact ⟨e, by rw [dictGet_dictSet_ne _ _ _ _ hk]; exact h, Finset.Subset.refl _⟩

/-- After merging a paper, its own key holds an entry whose categories contain
the tagged paper's categories. -/
theorem dictGet_mergePaper_self (s : Seen) (cat : Str) (p : Paper) :
    ∃ e, dictGet (mergePaper s cat p) (get_paper_key p) = some e ∧
      insert cat p.categories ⊆ e.categories := by
  simp only [mergePaper, get_paper_key_set_categories]
  cases hget : dictGet s (get_paper_key p) with
  | none => exact ⟨_, dictGet_dictSet_self .., Finset.Subset.refl _⟩
  | some ex => exact ⟨_, dictGet_dictSet_self .., Finset.subset_union_right⟩

theorem dictGet_mergeCategory_mono (cat : Str) (ps : List Paper) (s : Seen)
    (k : Key) (e : Paper) (h : dictGet s k = some e) :
    ∃ e', dictGet (mergeCategory s cat ps) k = some e' ∧
      e.categories ⊆ e'.categories := by
  induction ps generalizing s e with
  | nil => exact ⟨e, h, Finset.Subset.refl _⟩
  | cons p ps ih =>
    obtain ⟨e1, h1, hs1⟩ := dictGet_mergePaper_mono s cat p k e h
    obtain ⟨e2, h2, hs2⟩ := ih _ _ h1
    exact ⟨e2, h2, hs1.trans hs2⟩

/-- The invariant making a second merge pass a no-op: every paper of the list
already has an entry whose categories contain its tagged categories. -/
def MergedInv (s : Seen) (cat : Str) (ps : List Paper) : Prop :=
  ∀ p ∈ ps, ∃ e, dictGet s (get_paper_key p) = some e ∧
    insert cat p.categories ⊆ e.categories

theorem mergeCategory_establishes (s : Seen) (cat : Str) (ps : List Paper) :
    MergedInv (mergeCategory s cat ps) cat ps := by
  induction ps generalizing s with
  | nil => intro p hp; cases hp
  | cons p ps ih =>
    intro q hq
    rcases List.mem_cons.mp hq with rfl | hq
    · obtain ⟨e, he, hsub⟩ := dictGet_mergePaper_self s cat q
      obtain ⟨e', he', hsub'⟩ := dictGet_mergeCategory_mono cat ps _ _ _ he
      exact ⟨e', he', hsub.trans hsub'⟩
    · exact ih (mergePaper s cat p) q hq

theorem mergePaper_absorbed (s : Seen) (cat : Str) (p e : Paper)
    (h : dictGet s (get_paper_key p) = some e)
    (hsub : insert cat p.categories ⊆ e.categories) :
    mergePaper s cat p = s := by
  simp only [mergePaper, get_paper_key_set_categories]
  rw [h]
  show dictSet s (get_paper_key p)
      { e with categories := e.categories ∪ insert cat p.categories } = s
  rw [Finset.union_eq_left.mpr hsub]
  exact dictSet_eq_self _ _ _ h

theorem mergeCategory_absorbed (cat : Str) (ps : List Paper) (s : Seen)
    (hinv : MergedInv s cat ps) : mergeCategory s cat ps = s := by
  induction ps with
  | nil => rfl
  | cons p ps ih =>
    obtain ⟨e, he, hsub⟩ := hinv p (List.mem_cons_self _ _)
    show mergeCategory (mergePaper s cat p) cat ps = s
    rw [mergePaper_absorbed s cat p e he hsub]
    exact ih (fun q hq => hinv q (List.mem_cons_of_mem _ hq))

/-- C2: merging the same list of papers (in particular a single paper) into a
keyed corpus twice yields exactly the corpus obtained by merging it once. -/
theorem mergeCategory_idempotent (s : Seen) (cat : Str) (ps : List Paper) :
    mergeCategory (mergeCategory s cat ps) cat ps = mergeCategory s cat ps :=
  mergeCategory_absorbed cat ps _ (mergeCategory_establishes s cat ps)

/-! ## C3 : no two corpus entries share an identity key -/

/-- Well-formedness of the `seen` dict: keys are distinct and each entry is
stored under its paper's identity key. -/
def SeenWF (s : Seen) : Prop :=
  (s.map (·.1)).Nodup ∧ ∀ kv ∈ s, kv.1 = get_paper_key kv.2

theorem dictGet_mem (s : Seen) (k : Key) (v : Paper) (h : dictGet s k = some v) :
    (k, v) ∈ s := by
  induction s with
  | nil => simp [dictGet] at h
  | cons kv rest ih =>
    obtain ⟨k0, v0⟩ := kv
    by_cases h0 : k0 = k
    · subst h0
      simp [dictGet] at h
      subst h
      exact List.mem_cons_self _ _
    · simp only [dictGet, if_neg h0] at h
      exact List.mem_cons_of_mem _ (ih h)

theorem nodup_keys_dictSet (s : Seen) (k : Key) (v : Paper)
    (h : (s.map (·.1)).Nodup) : ((dictSet s k v).map (·.1)).Nodup := by
  induction s with
  | nil => simp [dictSet]
  | cons kv rest ih =>
    obtain ⟨k0, v0⟩ := kv
    simp only [List.map_cons, List.nodup_cons] at h
    obtain ⟨hk0, hrest⟩ := h
    by_cases h0 : k0 = k
    · subst h0
      have hset : dictSet ((k0, v0) :: rest) k0 v = (k0, v) :: rest := by
        simp [dictSet]
      rw [hset]
      simp only [List.map_cons, List.nodup_cons]
      exact ⟨hk0, hrest⟩
    · simp only [dictSet, if_neg h0, List.map_cons, List.nodup_cons]
      refine ⟨?_, ih hrest⟩
      intro hmem
      rw [List.mem_map] at hmem
      obtain ⟨kv', hkv', hk0eq⟩ := hmem
      rcases mem_dictSet rest k v kv' hkv' with rfl | hm
      · exact h0 hk0eq.symm
      · exact hk0 (hk0eq ▸ List.mem_map_of_mem _ hm)

theorem SeenWF_dictSet (s : Seen) (k : Key) (v : Paper) (hwf : SeenWF s)
    (hk : get_paper_key v = k) : SeenWF (dictSet s k v) := by
  obtain ⟨hnd, hcons⟩ := hwf
  refine ⟨nodup_keys_dictSet s k v hnd, ?_⟩
  intro kv hkv
  rcases mem_dictSet s k v kv hkv with rfl | h
  · exact hk.symm
  · exact hcons kv h

theorem SeenWF_mergePaper (s : Seen) (cat : Str) (p : Paper) (hwf : SeenWF s) :
    SeenWF (mergePaper s cat p) := by
  simp only [mergePaper, get_paper_key_set_categories]
  cases hget : dictGet s (get_paper_key p) with
  | none => exact SeenWF_dictSet _ _ _ hwf rfl
  | some e =>
    have hmem : (get_paper_key p, e) ∈ s := dictGet_mem s _ e hget
    have hkey : get_paper_key e = get_paper_key p := (hwf.2 _ hmem).symm
    exact SeenWF_dictSet _ _ _ hwf (by rw [get_paper_key_set_categories, hkey])

theorem SeenWF_buildSeen (today : Int) (ps : List Paper) (s : Seen)
    (hwf : SeenWF s) : SeenWF (buildSeen today s ps) := by
  induction ps generalizing s with
  | nil => exact hwf
  | cons p ps ih => exact ih _ (SeenWF_dictSet _ _ _ hwf rfl)

theorem SeenWF_mergeCategory (cat : Str) (ps : List Paper) (s : Seen)
    (hwf : SeenWF s) : SeenWF (mergeCategory s cat ps) := by
  induction ps generalizing s with
  | nil => exact hwf
  | cons p ps ih => exact ih _ (SeenWF_mergePaper _ _ _ hwf)

theorem SeenWF_foldMerge (fetched : List (Str × List SearchResult)) (start : Int)
    (s : Seen) (hwf : SeenWF s) :
    SeenWF (fetched.foldl
      (fun s cq => mergeCategory s cq.1 (search_arxiv cq.2 start)) s) := by
  induction fetched generalizing s with
  | nil => exact hwf
  | cons cq rest ih => exact ih _ (SeenWF_mergeCategory _ _ _ hwf)

theorem pairwise_keys_of_WF (s : Seen) (hwf : SeenWF s) (f : Paper → Paper)
    (hf : ∀ p, get_paper_key (f p) = get_paper_key p) :
    ((dictValues s).map f).Pairwise
      (fun p q => get_paper_key p ≠ get_paper_key q) := by
  obtain ⟨hnd, hcons⟩ := hwf
  rw [dictValues, List.map_map, List.pairwise_map]
  have hnd' : s.Pairwise (fun a b => a.1 ≠ b.1) := List.pairwise_map.mp hnd
  refine hnd'.imp_of_mem ?_
  intro a b ha hb hne
  simp only [Function.comp]
  rw [hf, hf, ← hcons a ha, ← hcons b hb]
  exact hne

/-- C3: in the corpus persisted at end of run no two entries share an
identity key. -/
theorem corpus_keys_distinct (file : CorpusFile) (today : Int)
    (cli : Option StartArg) (configStart : Int)
    (fetched : List (Str × List SearchResult)) (archKw appKw : List Str) :
    ((runPipeline file today cli configStart fetched archKw appKw).1).Pairwise
      (fun p q => get_paper_key p ≠ get_paper_key q) := by
  have hwf0 : SeenWF [] := ⟨List.nodup_nil, by simp⟩
  have hwf1 := SeenWF_buildSeen today (loadExistingPapers file) [] hwf0
  have hwf2 := SeenWF_foldMerge fetched
    (resolveStartDate cli today (loadExistingPapers file) configStart) _ hwf1
  exact pairwise_keys_of_WF _ hwf2 _ (fun p => rfl)

/-! ## C6 : the persisted corpus is not sorted by published date -/

def c6PaperOld : Paper :=
  { title := "Old Result".data, url := "u1".data, authors := ["Ann".data],
    published := 10, abstract := "a".data, categories := {"ml".data},
    architectures := [], applications := [], is_recent := none }

def c6PaperNew : Paper :=
  { title := "New Result".data, url := "u2".data, authors := ["Bob".data],
    published := 20, abstract := "b".data, categories := {"ml".data},
    architectures := [], applications := [], is_recent := none }

/-- C6 fails on the code: the sorted list computed at line 213 of src/main.py
is never used afterwards, so the persisted corpus keeps dict insertion order.
Loading a corpus whose papers appear oldest first persists them oldest first
— not published-date descending — while `sortPublishedDesc` itself would have
ordered them descending. -/
theorem persisted_corpus_not_sorted :
    ((runPipeline (.valid [c6PaperOld, c6PaperNew]) 100 none 0 [] [] []).1.map
      (fun p => p.published)) = [10, 20] ∧
    ¬ List.Sorted (fun a b : Int => b ≤ a)
        ((runPipeline (.valid [c6PaperOld, c6PaperNew]) 100 none 0 [] [] []).1.map
          (fun p => p.published)) ∧
    ((sortPublishedDesc
        (runPipeline (.valid [c6PaperOld, c6PaperNew]) 100 none 0 [] [] []).1).map
      (fun p => p.published)) = [20, 10] := by
  refine ⟨by decide, by decide, by decide⟩

/-! ## C7 : is_recent annotation -/

/-- C7 fails on the code: a paper fetched in the current run is persisted
with no `is_recent` field at all (here a paper published on the run's
current date, squarely within the 7-day window). -/
theorem is_recent_missing_on_new :
    ((runPipeline .missing 100 none 0
        [("ai".data, [⟨"T".data, "u".data, [], 100, "a".data⟩])] [] []).1.map
      (fun p => p.is_recent)) = [none] := by decide

/-- Papers present across the merge keep `is_recent = none`. -/
def RecentVals (today : Int) (keys : List Key) (s : Seen) : Prop :=
  ∀ kv ∈ s, kv.2.is_recent =
    (if kv.1 ∈ keys then some (decide (today - 7 ≤ kv.2.published)) else none)

def KeysPresent (keys : List Key) (s : Seen) : Prop :=
  ∀ k ∈ keys, (dictGet s k).isSome

theorem recentVals_dictSet (today : Int) (keys : List Key) (s : Seen) (k : Key)
    (v : Paper) (hs : RecentVals today keys s)
    (hv : v.is_recent =
      (if k ∈ keys then some (decide (today - 7 ≤ v.published)) else none)) :
    RecentVals today keys (dictSet s k v) := by
  intro kv hkv
  rcases mem_dictSet s k v kv hkv with rfl | h
  · exact hv
  · exact hs kv h

theorem recentVals_buildSeen (today : Int) (keys : List Key) (ps : List Paper)
    (s : Seen) (hs : RecentVals today keys s)
    (hps : ∀ p ∈ ps, get_paper_key p ∈ keys) :
    RecentVals today keys (buildSeen today s ps) := by
  induction ps generalizing s with
  | nil => exact hs
  | cons p ps ih =>
    refine ih _ (recentVals_dictSet _ _ _ _ _ hs ?_)
      (fun q hq => hps q (List.mem_cons_of_mem _ hq))
    have hk := hps p (List.mem_cons_self _ _)
    show (annotateRecent today p).is_recent =
      (if get_paper_key (annotateRecent today p) ∈ keys
       then some (decide (today - 7 ≤ (annotateRecent today p).published)) else none)
    have hkey : get_paper_key (annotateRecent today p) = get_paper_key p := rfl
    rw [hkey, if_pos hk]
    rfl

theorem keysPresent_dictSet (keys : List Key) (s : Seen) (k : Key) (v : Paper)
    (h : KeysPresent keys s) : KeysPresent keys (dictSet s k v) := by
  intro k' hk'
  by_cases he : k = k'
  · subst he
    rw [dictGet_dictSet_self]
    rfl
  · rw [dictGet_dictSet_ne _ _ _ _ he]
    exact h k' hk'

theorem keysPresent_buildSeen (today : Int) (ps : List Paper) (s : Seen)
    (keys : List Key)
    (h : ∀ k ∈ keys, (dictGet s k).isSome = true ∨ k ∈ ps.map get_paper_key) :
    KeysPresent keys (buildSeen today s ps) := by
  induction ps generalizing s with
  | nil =>
    intro k hk
    rcases h k hk with hp | hp
    · exact hp
    · simp at hp
  | cons p ps ih =>
    apply ih
    intro k hk
    rcases h k hk with hp | hp
    · left
      by_cases he : get_paper_key (annotateRecent today p) = k
      · subst he
        rw [dictGet_dictSet_self]
        rfl
      · rw [dictGet_dictSet_ne _ _ _ _ he]
        exact hp
    · simp only [List.map_cons, List.mem_cons] at hp
      rcases hp with rfl | hp
      · left
        have hkey : get_paper_key p = get_paper_key (annotateRecent today p) := rfl
        rw [hkey, dictGet_dictSet_self]
        rfl
      · right
        exact hp

theorem keysPresent_mergePaper (keys : List Key) (s : Seen) (cat : Str)
    (p : Paper) (h : KeysPresent keys s) : KeysPresent keys (mergePaper s cat p) := by
  simp only [mergePaper, get_paper_key_set_categories]
  cases hget : dictGet s (get_paper_key p) with
  | none => exact keysPresent_dictSet _ _ _ _ h
  | some e => exact keysPresent_dictSet _ _ _ _ h

theorem recentVals_mergePaper (today : Int) (keys : List Key) (s : Seen)
    (cat : Str) (p : Paper) (hrv : RecentVals today keys s)
    (hkp : KeysPresent keys s) (hp : p.is_recent = none) :
    RecentVals today keys (mergePaper s cat p) := by
  simp only [mergePaper, get_paper_key_set_categories]
  cases hget : dictGet s (get_paper_key p) with
  | none =>
    apply recentVals_dictSet _ _ _ _ _ hrv
    have hnk : get_paper_key p ∉ keys := by
      intro hmem
      have hsome := hkp _ hmem
      rw [hget] at hsome
      simp at hsome
    show ({ p with categories := insert cat p.categories }).is_recent = _
    rw [if_neg hnk]
    exact hp
  | some e =>
    apply recentVals_dictSet _ _ _ _ _ hrv
    have hmem : (get_paper_key p, e) ∈ s := dictGet_mem s _ e hget
    exact hrv _ hmem

theorem recentVals_mergeCategory (today : Int) (keys : List Key) (cat : Str)
    (ps : List Paper) (s : Seen) (hrv : RecentVals today keys s)
    (hkp : KeysPresent keys s) (hps : ∀ p ∈ ps, p.is_recent = none) :
    RecentVals today keys (mergeCategory s cat ps) := by
  induction ps generalizing s with
  | nil => exact hrv
  | cons p ps ih =>
    exact ih _
      (recentVals_mergePaper _ _ _ _ _ hrv hkp (hps p (List.mem_cons_self _ _)))
      (keysPresent_mergePaper _ _ _ _ hkp)
      (fun q hq => hps q (List.mem_cons_of_mem _ hq))

theorem keysPresent_mergeCategory (keys : List Key) (cat : Str) (ps : List Paper)
    (s : Seen) (hkp : KeysPresent keys s) :
    KeysPresent keys (mergeCategory s cat ps) := by
  induction ps generalizing s with
  | nil => exact hkp
  | cons p ps ih => exact ih _ (keysPresent_mergePaper _ _ _ _ hkp)

theorem search_arxiv_is_recent_none (rs : List SearchResult) (d : Int) :
    ∀ p ∈ search_arxiv rs d, p.is_recent = none := by
  intro p hp
  simp only [search_arxiv, List.mem_map] at hp
  obtain ⟨r, _, rfl⟩ := hp
  rfl

theorem recentVals_foldMerge (today : Int) (keys : List Key)
    (fetched : List (Str × List SearchResult)) (start : Int) (s : Seen)
    (hrv : RecentVals today keys s) (hkp : KeysPresent keys s) :
    RecentVals today keys
      (fetched.foldl
        (fun s cq => mergeCategory s cq.1 (search_arxiv cq.2 start)) s) := by
  induction fetched generalizing s with
  | nil => exact hrv
  | cons cq rest ih =>
    exact ih _
      (recentVals_mergeCategory _ _ _ _ _ hrv hkp (search_arxiv_is_recent_none _ _))
      (keysPresent_mergeCategory _ _ _ _ hkp)

/-- C7, amended: a persisted paper carries
`is_recent = (published within the 7 days up to today)` exactly when its
identity key belongs to the loaded prior corpus; papers first fetched in the
current run are persisted with no `is_recent` field. -/
theorem is_recent_characterisation (file : CorpusFile) (today : Int)
    (cli : Option StartArg) (configStart : Int)
    (fetched : List (Str × List SearchResult)) (archKw appKw : List Str) :
    ∀ p ∈ (runPipeline file today cli configStart fetched archKw appKw).1,
      p.is_recent =
        (if get_paper_key p ∈ (loadExistingPapers file).map get_paper_key
         then some (decide (today - 7 ≤ p.published)) else none) := by
  intro p hp
  set keys := (loadExistingPapers file).map get_paper_key with hkeys
  have hwf0 : SeenWF [] := ⟨List.nodup_nil, by simp⟩
  have hwf1 := SeenWF_buildSeen today (loadExistingPapers file) [] hwf0
  have hrv1 : RecentVals today keys (buildSeen today [] (loadExistingPapers file)) :=
    recentVals_buildSeen today keys (loadExistingPapers file) []
      (by intro kv hkv; cases hkv)
      (fun q hq => List.mem_map_of_mem _ hq)
  have hkp1 : KeysPresent keys (buildSeen today [] (loadExistingPapers file)) :=
    keysPresent_buildSeen today (loadExistingPapers file) [] keys
      (fun k hk => Or.inr hk)
  have hwf2 := SeenWF_foldMerge fetched
    (resolveStartDate cli today (loadExistingPapers file) configStart) _ hwf1
  have hrv2 := recentVals_foldMerge today keys fetched
    (resolveStartDate cli today (loadExistingPapers file) configStart) _ hrv1 hkp1
  revert hp
  show p ∈ (dictValues _).map _ → _
  intro hp
  rw [dictValues, List.map_map, List.mem_map] at hp
  obtain ⟨kv, hkv, rfl⟩ := hp
  have hkeq : kv.1 = get_paper_key kv.2 := hwf2.2 kv hkv
  have hval := hrv2 kv hkv
  show kv.2.is_recent = _
  rw [hval, hkeq]
  rfl

def c7ExistingPaper : Paper :=
  { title := "Prior Work".data, url := "u".data, authors := ["Cara".data],
    published := 95, abstract := "txt".data, categories := {"ml".data},
    architectures := [], applications := [], is_recent := none }

def c7OutPaper : Paper :=
  { c7ExistingPaper with is_recent := some true }

theorem is_recent_characterisation_witness :
    c7OutPaper ∈ (runPipeline (.valid [c7ExistingPaper]) 100 none 0 [] [] []).1 ∧
      c7OutPaper.is_recent =
        (if get_paper_key c7OutPaper ∈
            (loadExistingPapers (.valid [c7ExistingPaper])).map get_paper_key
         then some (decide ((100 : Int) - 7 ≤ c7OutPaper.published)) else none) :=
  ⟨by decide,
    is_recent_characterisation (.valid [c7ExistingPaper]) 100 none 0 [] [] []
      c7OutPaper (by decide)⟩

/-! ## C5 : keyword matcher versus whole-word specification -/

theorem lowerChar_toNat (c : Char) :
    (lowerChar c).toNat =
      if 65 ≤ c.toNat ∧ c.toNat ≤ 90 then c.toNat + 32 else c.toNat := by
  by_cases h : 65 ≤ c.toNat ∧ c.toNat ≤ 90
  · rw [if_pos h]
    unfold lowerChar
    rw [dif_pos h]
    rfl
  · rw [if_neg h]
    unfold lowerChar
    rw [dif_neg h]

theorem wordChar_lowerChar (c : Char) : wordChar (lowerChar c) = wordChar c := by
  simp only [wordChar, lowerChar_toNat]
  by_cases h : 65 ≤ c.toNat ∧ c.toNat ≤ 90
  · rw [if_pos h]
    simp only [decide_eq_decide]
    omega
  · rw [if_neg h]

theorem wordChar_of_lowerChar_eq (a b : Char) (h : lowerChar a = lowerChar b) :
    wordChar a = wordChar b := by
  rw [← wordChar_lowerChar a, ← wordChar_lowerChar b, h]

/-- Is the first character a word character? -/
def headWord : Str → Bool
  | [] => false
  | c :: _ => wordChar c

/-- Is the last character a word character? -/
def lastWord : Str → Bool
  | [] => false
  | [c] => wordChar c
  | _ :: c :: cs => lastWord (c :: cs)

/-- A keyword suitable for whole-word matching: nonempty, first and last
characters are word characters. -/
def wordEdged (kw : Str) : Bool := headWord kw && lastWord kw

theorem ciMatch_append (a b u : Str) :
    ciMatch (a ++ b) u = (ciMatch a u && ciMatch b (u.drop a.length)) := by
  induction a generalizing u with
  | nil => simp [ciMatch]
  | cons x xs ih =>
    cases u with
    | nil => simp [ciMatch]
    | cons c cs =>
      simp only [List.cons_append, ciMatch, List.length_cons,
        List.drop_succ_cons, List.append_eq, ih, Bool.and_assoc]

theorem wAt_of_ciMatch_head (kw t : Str) (i : Nat) (hkw : headWord kw = true)
    (hm : ciMatch kw (t.drop i) = true) : wAt t i = true := by
  cases kw with
  | nil => simp [headWord] at hkw
  | cons x xs =>
    cases hd : t.drop i with
    | nil => rw [hd] at hm; simp [ciMatch] at hm
    | cons d ds =>
      rw [hd] at hm
      simp only [ciMatch, Bool.and_eq_true, beq_iff_eq] at hm
      have hget : t[i]? = some d := by
        have hg := List.getElem?_drop t i 0
        rw [hd] at hg
        simpa using hg.symm
      unfold wAt
      rw [hget]
      show wordChar d = true
      rw [← wordChar_of_lowerChar_eq x d hm.1]
      simpa [headWord] using hkw

theorem wAt_last_of_ciMatch (kw t : Str) (i : Nat) (hkw : lastWord kw = true)
    (hm : ciMatch kw (t.drop i) = true) : wAt t (i + kw.length - 1) = true := by
  induction kw generalizing i with
  | nil => simp [lastWord] at hkw
  | cons x xs ih =>
    cases hd : t.drop i with
    | nil => rw [hd] at hm; simp [ciMatch] at hm
    | cons d ds =>
      rw [hd] at hm
      simp only [ciMatch, Bool.and_eq_true, beq_iff_eq] at hm
      have hds : ds = t.drop (i + 1) := by
        have ht := List.tail_drop t i
        rw [hd] at ht
        simpa using ht
      cases xs with
      | nil =>
        have hget : t[i]? = some d := by
          have hg := List.getElem?_drop t i 0
          rw [hd] at hg
          simpa using hg.symm
        show wAt t (i + 1 - 1) = true
        simp only [Nat.add_sub_cancel]
        unfold wAt
        rw [hget]
        show wordChar d = true
        rw [← wordChar_of_lowerChar_eq x d hm.1]
        simpa [lastWord] using hkw
      | cons y ys =>
        have hkw' : lastWord (y :: ys) = true := hkw
        have hih := ih (i + 1) hkw' (by rw [← hds]; exact hm.2)
        have harith : i + (x :: y :: ys).length - 1 = i + 1 + (y :: ys).length - 1 := by
          simp only [List.length_cons]
          omega
        rw [harith]
        exact hih

theorem bAt_eq_left (t : Str) (i : Nat) (h : wAt t i = true) :
    bAt t i = (if i = 0 then true else !wAt t (i - 1)) := by
  unfold bAt
  rw [h]
  by_cases h0 : i = 0
  · rw [if_pos h0, if_pos h0]
    rfl
  · rw [if_neg h0, if_neg h0]
    cases wAt t (i - 1) <;> rfl

theorem bAt_succ_eq (t : Str) (n : Nat) (h : wAt t n = true) :
    bAt t (n + 1) = !wAt t (n + 1) := by
  unfold bAt
  rw [if_neg (Nat.succ_ne_zero n)]
  simp only [Nat.add_sub_cancel]
  rw [h]
  cases wAt t (n + 1) <;> rfl

theorem patMatchAt_eq (kw t : Str) (hkw : wordEdged kw = true) (i : Nat) :
    patMatchAt kw t i =
      ((if i = 0 then true else !wAt t (i - 1)) &&
        ((ciMatch kw (t.drop i) && !wAt t (i + kw.length)) ||
          (ciMatch (kw ++ ['s']) (t.drop i) && !wAt t (i + kw.length + 1)))) := by
  simp only [wordEdged, Bool.and_eq_true] at hkw
  obtain ⟨hhead, hlast⟩ := hkw
  have hdd : (t.drop i).drop kw.length = t.drop (i + kw.length) := by
    rw [List.drop_drop]
  rw [ciMatch_append, hdd]
  cases hm : ciMatch kw (t.drop i) with
  | false => simp [patMatchAt, hm]
  | true =>
    have hw0 : wAt t i = true := wAt_of_ciMatch_head kw t i hhead hm
    have hwl : wAt t (i + kw.length - 1) = true := wAt_last_of_ciMatch kw t i hlast hm
    have hlen : kw.length ≠ 0 := by
      cases kw
      · simp [headWord] at hhead
      · simp
    have hb0 : bAt t i = (if i = 0 then true else !wAt t (i - 1)) := bAt_eq_left t i hw0
    have hbj : bAt t (i + kw.length) = !wAt t (i + kw.length) := by
      have harith : i + kw.length = (i + kw.length - 1) + 1 := by omega
      rw [harith]
      exact bAt_succ_eq t (i + kw.length - 1) hwl
    cases hs : ciMatch ['s'] (t.drop (i + kw.length)) with
    | false => simp [patMatchAt, hm, hs, hb0, hbj]
    | true =>
      have hwj : wAt t (i + kw.length) = true :=
        wAt_of_ciMatch_head ['s'] t (i + kw.length) (by decide) hs
      have hbj1 : bAt t (i + kw.length + 1) = !wAt t (i + kw.length + 1) :=
        bAt_succ_eq t _ hwj
      simp [patMatchAt, hm, hs, hb0, hbj, hbj1, hwj]

/-- For keywords whose first and last characters are word characters, the
code's regex search `\b<kw>s?\b` agrees exactly with the spec's whole-word
occurrence predicate. -/
theorem regexSearch_eq_occursWholeWord (kw t : Str) (hkw : wordEdged kw = true) :
    regexSearch kw t = occursWholeWord kw t := by
  unfold regexSearch occursWholeWord
  congr 1
  funext i
  exact patMatchAt_eq kw t hkw i

theorem groupHit_eq_any (tl : Str) (l : List Str) :
    groupHit tl l = l.any (fun kw => regexSearch (pyStrip kw) tl) := by
  induction l with
  | nil => rfl
  | cons kw rest ih => simp only [groupHit, List.any_cons, ih]

theorem any_congr_mem (l : List Str) (f g : Str → Bool)
    (h : ∀ a ∈ l, f a = g a) : l.any f = l.any g := by
  induction l with
  | nil => rfl
  | cons x xs ih =>
    simp only [List.any_cons, h x (List.mem_cons_self _ _),
      ih (fun a ha => h a (List.mem_cons_of_mem _ ha))]

/-- C5, amended: provided every synonym (after stripping) is nonempty and
begins and ends with a word character, `exact_match` emits, per group and in
taxonomy order, the group's first term exactly when some synonym of the group
occurs in the text as a case-insensitive whole word optionally followed by a
trailing `s`; no group contributes more than one tag. -/
theorem exact_match_spec (text : Str) (groups : List Str)
    (h : ∀ g ∈ groups, ∀ kw ∈ splitComma g, wordEdged (pyStrip kw) = true) :
    exact_match text groups =
      (groups.filter (fun g =>
        (splitComma g).any
          (fun kw => occursWholeWord (pyStrip kw) (lowerStr text)))).map
        (fun g => (splitComma g).headD []) := by
  unfold exact_match
  induction groups with
  | nil => rfl
  | cons g rest ih =>
    have hg : groupHit (lowerStr text) (splitComma g) =
        (splitComma g).any
          (fun kw => occursWholeWord (pyStrip kw) (lowerStr text)) := by
      rw [groupHit_eq_any]
      exact any_congr_mem _ _ _ (fun kw hkw =>
        regexSearch_eq_occursWholeWord _ _ (h g (List.mem_cons_self _ _) kw hkw))
    show (if groupHit (lowerStr text) (splitComma g) = true
        then (splitComma g).headD [] :: exactMatchGo (lowerStr text) rest
        else exactMatchGo (lowerStr text) rest) = _
    rw [hg, List.filter_cons]
    by_cases hcond :
        ((splitComma g).any fun kw => occursWholeWord (pyStrip kw) (lowerStr text)) = true
    · rw [if_pos hcond, if_pos hcond, List.map_cons]
      exact congrArg _ (ih (fun g' hg' => h g' (List.mem_cons_of_mem _ hg')))
    · rw [if_neg hcond, if_neg hcond]
      exact ih (fun g' hg' => h g' (List.mem_cons_of_mem _ hg'))

/-- C5 as stated fails on the code: the synonym "c++" occurs in the text as a
case-insensitive whole word (no word character on either side), yet the
matcher emits nothing — the generated pattern `\bc\+\+s?\b` demands a word
character right before the final boundary. -/
theorem exact_match_not_whole_word :
    occursWholeWord (pyStrip "c++".data) (lowerStr "we use c++ daily".data) = true ∧
    exact_match "we use c++ daily".data ["c++".data] = [] := by
  constructor
  · decide
  · decide

theorem exact_match_spec_witness :
    (∀ g ∈ ["transformer,transformers".data], ∀ kw ∈ splitComma g,
        wordEdged (pyStrip kw) = true) ∧
      exact_match "We use transformers for X".data ["transformer,transformers".data] =
        (["transformer,transformers".data].filter (fun g =>
          (splitComma g).any (fun kw =>
            occursWholeWord (pyStrip kw)
              (lowerStr "We use transformers for X".data)))).map
          (fun g => (splitComma g).headD []) :=
  ⟨by decide,
    exact_match_spec "We use transformers for X".data
      ["transformer,transformers".data] (by decide)⟩
